import Mathlib

/-!
Verification of the spatial discretization and right-hand-side evaluator of
`run_FDHW.py` (flux-driven Hasegawa-Wakatani solver).  Arrays are embedded as
functions `Fin n → ℝ`, floating-point arithmetic as exact real arithmetic, and
the sequential masked in-place array updates of the Python source as explicit
state passing (a chain of conditionals with later assignments taking
priority).
-/

namespace FDHW

/-! ### Gate functions (source lines 83-110) -/

/-- Smooth function flat at 0: `exp(-1/y)` for `y > 0`, `0` otherwise
(source line 83, function `p`). -/
noncomputable def p (y : ℝ) : ℝ := if 0 < y then Real.exp (-1 / y) else 0

/-- Smooth transition from 0 to 1 (source line 90, function `jump`). -/
noncomputable def jump (y : ℝ) : ℝ := p y / (p y + p (1 - y))

/-- Smooth gate (source lines 94-102).  The source initializes `f` to ones and
performs four masked assignments in order (`X <= X[il]`, `idl`, `idr`,
`X >= X[ir]`); the conditional chain below checks the masks in reverse order,
which is exactly the semantics of sequential masked in-place assignment. -/
noncomputable def smooth_gate {n : ℕ} (X : Fin n → ℝ) (il i1 i2 ir : Fin n)
    (j : Fin n) : ℝ :=
  if X ir ≤ X j then 0
  else if |X j - (X ir + X i2) / 2| < (X ir - X i2) / 2 then
    jump ((X ir - X j) / (X ir - X i2))
  else if |X j - (X i1 + X il) / 2| < (X i1 - X il) / 2 then
    jump ((X j - X il) / (X i1 - X il))
  else if X j ≤ X il then 0
  else 1

/-- The 1D penalisation gate `psi_1D` (source line 108). -/
noncomputable def psi_1D {n : ℕ} (X : Fin n → ℝ) (il i1 i2 ir : Fin n) :
    Fin n → ℝ :=
  smooth_gate X il i1 i2 ir

/-- Left-buffer mask `H1 = (1 - psi_1D) * (X < X[i1])` (source line 109). -/
noncomputable def H1 {n : ℕ} (X : Fin n → ℝ) (il i1 i2 ir : Fin n)
    (j : Fin n) : ℝ :=
  (1 - psi_1D X il i1 i2 ir j) * (if X j < X i1 then 1 else 0)

/-- Right-buffer mask `H2 = (1 - psi_1D) * (X > X[i2])` (source line 110). -/
noncomputable def H2 {n : ℕ} (X : Fin n → ℝ) (il i1 i2 ir : Fin n)
    (j : Fin n) : ℝ :=
  (1 - psi_1D X il i1 i2 ir j) * (if X i2 < X j then 1 else 0)

/-! ### Profile decomposition (source lines 113-131) -/

/-- Domain mean of an array, `xp.mean`. -/
noncomputable def mean {n : ℕ} (v : Fin n → ℝ) : ℝ := (∑ j, v j) / n

/-- Profile decomposer `dec_prof` (source lines 113-131): extract the
background gradient `kap`, subtract the linear profile anchored at `i2`,
flatten the remainder in the buffer with a smooth gate around the four anchor
offsets, and remove the domain mean. -/
noncomputable def dec_prof {n : ℕ} (nr X : Fin n → ℝ)
    (il im1 i1 i2 im2 ir : Fin n) : (Fin n → ℝ) × ℝ × ℝ :=
  let kap : ℝ := -(nr i2 - nr i1) / (X i2 - X i1)
  let nlin : Fin n → ℝ := fun j => -kap * (X j - X i2) + nr i2
  let nbar_raw : Fin n → ℝ := fun j => nr j - nlin j
  let n_off : ℝ :=
    (nbar_raw ⟨0, il.pos⟩ + nbar_raw im1 + nbar_raw im2 +
      nbar_raw ⟨n - 1, Nat.sub_lt il.pos one_pos⟩) / 4
  let nbar_smth : Fin n → ℝ :=
    fun j => (nbar_raw j - n_off) * smooth_gate X il im1 im2 ir j + n_off
  let nm : ℝ := mean nbar_smth
  (fun j => nbar_smth j - nm, kap, nm)

/-! ### Boundary sources and buffer restoring force in `rhs`
(source lines 292-297) -/

/-- The narrow Gaussian source shape `exp(-(X - X[i])^2 / sigS^2 / 2)`. -/
noncomputable def gaussS {n : ℕ} (X : Fin n → ℝ) (i : Fin n) (sigS : ℝ)
    (j : Fin n) : ℝ :=
  Real.exp (-(X j - X i) ^ 2 / sigS ^ 2 / 2)

/-- Source line 292: `dnrdt += -dnrdt[i2] * exp(-(X - X[i2])**2 / sigS**2 / 2)`.
The scaling amplitude `d i2` is the value before this update (the right-hand
side of the Python `+=` is evaluated first). -/
noncomputable def dnrdt_src_r {n : ℕ} (X : Fin n → ℝ) (i2 : Fin n) (sigS : ℝ)
    (d : Fin n → ℝ) : Fin n → ℝ :=
  fun j => d j + -d i2 * gaussS X i2 sigS j

/-- Source line 293: `dnrdt += dnrdt[i2] * exp(-(X - X[i1])**2 / sigS**2 / 2)`.
Here `d` is the buffer after line 292, and `d i2` is re-read from it. -/
noncomputable def dnrdt_src_l {n : ℕ} (X : Fin n → ℝ) (i1 i2 : Fin n)
    (sigS : ℝ) (d : Fin n → ℝ) : Fin n → ℝ :=
  fun j => d j + d i2 * gaussS X i1 sigS j

/-- Source lines 296-297: buffer restoring force
`dnrdt += -mupen * (H1 * (nr - nbuff1) + H2 * (nr - nbuff2))` with
`nbuff1 = nr0 - nr0[i1] + nr[i1]` and `nbuff2 = nr0 - nr0[i2] + nr[i2]`. -/
noncomputable def dnrdt_pen {n : ℕ} (X : Fin n → ℝ) (il i1 i2 ir : Fin n)
    (mupen : ℝ) (nr0 nr d : Fin n → ℝ) : Fin n → ℝ :=
  fun j => d j + -mupen *
    (H1 X il i1 i2 ir j * (nr j - (nr0 j - nr0 i1 + nr i1)) +
      H2 X il i1 i2 ir j * (nr j - (nr0 j - nr0 i2 + nr i2)))

/-- The full boundary-condition tail of `rhs` applied to the density-profile
derivative: line 292, then line 293, then line 297, in source order. -/
noncomputable def dnrdt_bc {n : ℕ} (X : Fin n → ℝ) (il i1 i2 ir : Fin n)
    (sigS mupen : ℝ) (nr0 nr d0 : Fin n → ℝ) : Fin n → ℝ :=
  dnrdt_pen X il i1 i2 ir mupen nr0 nr
    (dnrdt_src_l X i1 i2 sigS (dnrdt_src_r X i2 sigS d0))

/-! ### Dealiased resolution (source line 54) -/

/-- `Nx = 2 * int(np.floor(Npx/3))` (source line 54); `Npx / 3` is natural
division, which agrees with `floor` on nonnegative input. -/
def NxOf (Npx : ℕ) : ℕ := 2 * (Npx / 3)

/-! ### Basic lemmas about the boundary sources -/

lemma gaussS_self {n : ℕ} (X : Fin n → ℝ) (i : Fin n) (sigS : ℝ) :
    gaussS X i sigS i = 1 := by
  unfold gaussS
  simp

lemma dnrdt_src_r_at_i2 {n : ℕ} (X : Fin n → ℝ) (i2 : Fin n) (sigS : ℝ)
    (d : Fin n → ℝ) : dnrdt_src_r X i2 sigS d i2 = 0 := by
  unfold dnrdt_src_r
  rw [gaussS_self]
  ring

lemma dnrdt_src_l_after_r {n : ℕ} (X : Fin n → ℝ) (i1 i2 : Fin n)
    (sigS : ℝ) (d : Fin n → ℝ) :
    dnrdt_src_l X i1 i2 sigS (dnrdt_src_r X i2 sigS d) =
      dnrdt_src_r X i2 sigS d := by
  funext j
  unfold dnrdt_src_l
  rw [dnrdt_src_r_at_i2]
  ring

lemma H2_at_i2 {n : ℕ} (X : Fin n → ℝ) (il i1 i2 ir : Fin n) :
    H2 X il i1 i2 ir i2 = 0 := by
  unfold H2
  rw [if_neg (lt_irrefl _)]
  ring

lemma H1_at_i2 {n : ℕ} (X : Fin n → ℝ) (il i1 i2 ir : Fin n)
    (h : X i1 ≤ X i2) : H1 X il i1 i2 ir i2 = 0 := by
  unfold H1
  rw [if_neg (not_lt.mpr h)]
  ring

/-- After the full boundary-condition tail (sources and restoring force), the
density derivative at `i2` is exactly zero: the restoring force vanishes at
`i2` because `H1` and `H2` are built from strict inequalities. -/
lemma dnrdt_bc_at_i2 {n : ℕ} (X : Fin n → ℝ) (il i1 i2 ir : Fin n)
    (sigS mupen : ℝ) (nr0 nr d0 : Fin n → ℝ) (h : X i1 ≤ X i2) :
    dnrdt_bc X il i1 i2 ir sigS mupen nr0 nr d0 i2 = 0 := by
  unfold dnrdt_bc dnrdt_pen
  rw [H1_at_i2 X il i1 i2 ir h, H2_at_i2, dnrdt_src_l_after_r,
    dnrdt_src_r_at_i2]
  ring

/-! ### Claim C2 -/

/-- Claim C2: for every state (hence for every pre-correction derivative
buffer `d`), immediately after the Gaussian-source correction of source line
292 the density-profile derivative at index `i2` equals exactly zero: the
Gaussian equals one at its own center, so the update subtracts exactly the
current value. -/
theorem C2_src_r_zero_at_i2 {n : ℕ} (X : Fin n → ℝ) (i2 : Fin n) (sigS : ℝ)
    (d : Fin n → ℝ) : dnrdt_src_r X i2 sigS d i2 = 0 :=
  dnrdt_src_r_at_i2 X i2 sigS d

/-! ### Claim C3 -/

/-- Claim C3 (code bug): source line 293 re-reads `dnrdt[i2]` after line 292
has zeroed it, so the Gaussian "compensation" added at `X[i1]` always has
amplitude zero - the line is a no-op for every state, contradicting the
comment that it compensates the artificial loss at the right boundary. -/
theorem C3_left_source_is_noop {n : ℕ} (X : Fin n → ℝ) (i1 i2 : Fin n)
    (sigS : ℝ) (d : Fin n → ℝ) :
    dnrdt_src_l X i1 i2 sigS (dnrdt_src_r X i2 sigS d) =
      dnrdt_src_r X i2 sigS d :=
  dnrdt_src_l_after_r X i1 i2 sigS d

/-! ### Claim C9 -/

/-- Claim C9: for every positive `Npx`, the dealiased resolution
`Nx = 2 * floor(Npx / 3)` is the largest even natural number that is at most
`(2/3) * Npx`. -/
theorem C9_two_thirds_rule (n : ℕ) (hn : 0 < n) :
    Even (NxOf n) ∧ (NxOf n : ℚ) ≤ 2 / 3 * n ∧
      ∀ m : ℕ, Even m → (m : ℚ) ≤ 2 / 3 * n → m ≤ NxOf n := by
  refine ⟨⟨n / 3, by unfold NxOf; ring⟩, ?_, ?_⟩
  · rw [show (2 : ℚ) / 3 * n = 2 * n / 3 by ring, le_div_iff (by norm_num)]
    have h : NxOf n * 3 ≤ 2 * n := by unfold NxOf; omega
    exact_mod_cast h
  · intro m hm hle
    rw [show (2 : ℚ) / 3 * n = 2 * n / 3 by ring, le_div_iff (by norm_num)]
      at hle
    have h3 : m * 3 ≤ 2 * n := by exact_mod_cast hle
    have h2 : m % 2 = 0 := Nat.even_iff.mp hm
    unfold NxOf
    omega

/-- Witness for C9 at the program's configuration `Npx = 512`
(`NxOf 512 = 340`). -/
theorem C9_two_thirds_rule_witness :
    0 < 512 ∧ (Even (NxOf 512) ∧ (NxOf 512 : ℚ) ≤ 2 / 3 * 512 ∧
      ∀ m : ℕ, Even m → (m : ℚ) ≤ 2 / 3 * 512 → m ≤ NxOf 512) :=
  ⟨by decide, C9_two_thirds_rule 512 (by decide)⟩

/-! ### Properties of `p`, `jump` and `smooth_gate` -/

lemma p_nonneg (y : ℝ) : 0 ≤ p y := by
  unfold p
  split
  · exact (Real.exp_pos _).le
  · exact le_refl 0

lemma p_pos {y : ℝ} (h : 0 < y) : 0 < p y := by
  unfold p
  rw [if_pos h]
  exact Real.exp_pos _

lemma p_eq_zero {y : ℝ} (h : y ≤ 0) : p y = 0 := by
  unfold p
  rw [if_neg (not_lt.mpr h)]

lemma p_denom_pos (y : ℝ) : 0 < p y + p (1 - y) := by
  rcases lt_or_le 0 y with h | h
  · exact add_pos_of_pos_of_nonneg (p_pos h) (p_nonneg _)
  · exact add_pos_of_nonneg_of_pos (p_nonneg _) (p_pos (by linarith))

lemma jump_nonneg (y : ℝ) : 0 ≤ jump y :=
  div_nonneg (p_nonneg y) (p_denom_pos y).le

lemma jump_le_one (y : ℝ) : jump y ≤ 1 := by
  unfold jump
  rw [div_le_one (p_denom_pos y)]
  exact le_add_of_nonneg_right (p_nonneg _)

lemma jump_of_nonpos {y : ℝ} (h : y ≤ 0) : jump y = 0 := by
  unfold jump
  rw [p_eq_zero h, zero_div]

lemma jump_of_one_le {y : ℝ} (h : 1 ≤ y) : jump y = 1 := by
  unfold jump
  rw [p_eq_zero (by linarith : 1 - y ≤ 0), add_zero,
    div_self (p_pos (by linarith)).ne']

lemma jump_interior {y : ℝ} (h0 : 0 < y) (h1 : y < 1) :
    jump y = 1 / (1 + Real.exp (1 / y - 1 / (1 - y))) := by
  have hy1 : 0 < 1 - y := by linarith
  unfold jump p
  rw [if_pos h0, if_pos hy1,
    div_eq_div_iff (by positivity) (by positivity), mul_add, mul_one,
    ← Real.exp_add, one_mul,
    show -1 / y + (1 / y - 1 / (1 - y)) = -1 / (1 - y) from by ring]

lemma jump_mono : Monotone jump := by
  intro s t hst
  rcases le_or_lt t 0 with ht0 | ht0
  · rw [jump_of_nonpos (hst.trans ht0), jump_of_nonpos ht0]
  rcases le_or_lt s 0 with hs0 | hs0
  · rw [jump_of_nonpos hs0]
    exact jump_nonneg t
  rcases le_or_lt 1 t with ht1 | ht1
  · rw [jump_of_one_le ht1]
    exact jump_le_one s
  rcases le_or_lt 1 s with hs1 | hs1
  · linarith
  rw [jump_interior hs0 hs1, jump_interior ht0 ht1]
  have h1t : 0 < 1 - t := by linarith
  have h1s : 0 < 1 - s := by linarith
  have ha : 1 / t ≤ 1 / s := one_div_le_one_div_of_le hs0 hst
  have hb : 1 / (1 - s) ≤ 1 / (1 - t) :=
    one_div_le_one_div_of_le h1t (by linarith)
  have hE : Real.exp (1 / t - 1 / (1 - t)) ≤ Real.exp (1 / s - 1 / (1 - s)) :=
    Real.exp_le_exp.mpr (by linarith)
  apply one_div_le_one_div_of_le (by positivity)
  linarith

lemma abs_window {a b x : ℝ} :
    |x - (b + a) / 2| < (b - a) / 2 ↔ a < x ∧ x < b := by
  rw [abs_lt]
  constructor
  · rintro ⟨h1, h2⟩
    constructor <;> linarith
  · rintro ⟨h1, h2⟩
    constructor <;> linarith

lemma smooth_gate_eq_one {n : ℕ} {X : Fin n → ℝ} {il i1 i2 ir : Fin n}
    (hl1 : X il < X i1) (h2r : X i2 < X ir) {j : Fin n}
    (hj1 : X i1 ≤ X j) (hj2 : X j ≤ X i2) :
    smooth_gate X il i1 i2 ir j = 1 := by
  unfold smooth_gate
  rw [if_neg (not_le.mpr (lt_of_le_of_lt hj2 h2r)),
    if_neg (fun h => absurd hj2 (not_le.mpr (abs_window.mp h).1)),
    if_neg (fun h => absurd hj1 (not_le.mpr (abs_window.mp h).2)),
    if_neg (not_le.mpr (lt_of_lt_of_le hl1 hj1))]

lemma smooth_gate_eq_zero_left {n : ℕ} {X : Fin n → ℝ} {il i1 i2 ir : Fin n}
    (hl1 : X il < X i1) (h12 : X i1 ≤ X i2) (h2r : X i2 < X ir) {j : Fin n}
    (hj : X j ≤ X il) : smooth_gate X il i1 i2 ir j = 0 := by
  unfold smooth_gate
  rw [if_neg (not_le.mpr (by linarith)),
    if_neg (fun h => absurd (abs_window.mp h).1 (by linarith)),
    if_neg (fun h => absurd (abs_window.mp h).1 (by linarith)),
    if_pos hj]

lemma smooth_gate_eq_zero_right {n : ℕ} {X : Fin n → ℝ} {il i1 i2 ir : Fin n}
    {j : Fin n} (hj : X ir ≤ X j) : smooth_gate X il i1 i2 ir j = 0 := by
  unfold smooth_gate
  rw [if_pos hj]

lemma smooth_gate_left_formula {n : ℕ} {X : Fin n → ℝ} {il i1 i2 ir : Fin n}
    (hl1 : X il < X i1) (h12 : X i1 ≤ X i2) (h2r : X i2 < X ir) {j : Fin n}
    (hjl : X il ≤ X j) (hj1 : X j ≤ X i1) :
    smooth_gate X il i1 i2 ir j = jump ((X j - X il) / (X i1 - X il)) := by
  rcases hj1.lt_or_eq with hlt | heq
  · rcases hjl.lt_or_eq with hltl | heql
    · unfold smooth_gate
      rw [if_neg (not_le.mpr (by linarith)),
        if_neg (fun h => absurd (abs_window.mp h).1 (by linarith)),
        if_pos (abs_window.mpr ⟨hltl, hlt⟩)]
    · rw [smooth_gate_eq_zero_left hl1 h12 h2r heql.ge, ← heql, sub_self,
        zero_div, jump_of_nonpos le_rfl]
  · rw [smooth_gate_eq_one hl1 h2r heq.ge (heq ▸ h12), heq,
      div_self (sub_ne_zero.mpr hl1.ne'), jump_of_one_le le_rfl]

lemma smooth_gate_right_formula {n : ℕ} {X : Fin n → ℝ} {il i1 i2 ir : Fin n}
    (hl1 : X il < X i1) (h12 : X i1 ≤ X i2) (h2r : X i2 < X ir) {j : Fin n}
    (hj2 : X i2 ≤ X j) (hjr : X j ≤ X ir) :
    smooth_gate X il i1 i2 ir j = jump ((X ir - X j) / (X ir - X i2)) := by
  rcases hjr.lt_or_eq with hlt | heq
  · rcases hj2.lt_or_eq with hlt2 | heq2
    · unfold smooth_gate
      rw [if_neg (not_le.mpr hlt), if_pos (abs_window.mpr ⟨hlt2, hlt⟩)]
    · rw [smooth_gate_eq_one hl1 h2r (h12.trans heq2.le) heq2.ge, ← heq2,
        div_self (sub_ne_zero.mpr h2r.ne'), jump_of_one_le le_rfl]
  · rw [smooth_gate_eq_zero_right heq.ge, heq, sub_self, zero_div,
      jump_of_nonpos le_rfl]

/-! ### Claim C7 -/

/-- The shape properties claimed for `smooth_gate`: exactly one on
`[X[i1], X[i2]]`, exactly zero at or outside `X[il]`, `X[ir]`, non-decreasing
on the left transition and non-increasing on the right transition. -/
def gateShape {n : ℕ} (X : Fin n → ℝ) (il i1 i2 ir : Fin n) : Prop :=
  (∀ j, X i1 ≤ X j → X j ≤ X i2 → smooth_gate X il i1 i2 ir j = 1) ∧
  (∀ j, X j ≤ X il ∨ X ir ≤ X j → smooth_gate X il i1 i2 ir j = 0) ∧
  (∀ j k, X il ≤ X j → X j ≤ X k → X k ≤ X i1 →
    smooth_gate X il i1 i2 ir j ≤ smooth_gate X il i1 i2 ir k) ∧
  (∀ j k, X i2 ≤ X j → X j ≤ X k → X k ≤ X ir →
    smooth_gate X il i1 i2 ir k ≤ smooth_gate X il i1 i2 ir j)

/-- Claim C7: for every strictly increasing grid and valid index ordering,
`smooth_gate` is exactly 1 between `X[i1]` and `X[i2]`, exactly 0 at or
beyond `X[il]` and `X[ir]`, and monotone within each transition region. -/
theorem C7_smooth_gate_shape {n : ℕ} (X : Fin n → ℝ) (il i1 i2 ir : Fin n)
    (hX : StrictMono X) (h01 : il < i1) (h12 : i1 < i2) (h2r : i2 < ir) :
    gateShape X il i1 i2 ir := by
  have hl1 := hX h01
  have h12' := (hX h12).le
  have h2r' := hX h2r
  refine ⟨fun j hj1 hj2 => smooth_gate_eq_one hl1 h2r' hj1 hj2,
    fun j hj => ?_, fun j k hjl hjk hk1 => ?_, fun j k hj2 hjk hkr => ?_⟩
  · rcases hj with hj | hj
    · exact smooth_gate_eq_zero_left hl1 h12' h2r' hj
    · exact smooth_gate_eq_zero_right hj
  · rw [smooth_gate_left_formula hl1 h12' h2r' hjl (hjk.trans hk1),
      smooth_gate_left_formula hl1 h12' h2r' (hjl.trans hjk) hk1]
    exact jump_mono ((div_le_div_right (by linarith)).mpr (by linarith))
  · rw [smooth_gate_right_formula hl1 h12' h2r' hj2 (hjk.trans hkr),
      smooth_gate_right_formula hl1 h12' h2r' (hj2.trans hjk) hkr]
    exact jump_mono ((div_le_div_right (by linarith)).mpr (by linarith))

lemma castFin_strictMono (n : ℕ) :
    StrictMono (fun j : Fin n => ((j : ℕ) : ℝ)) := fun a b h => by
  simp only
  exact_mod_cast h

/-- Witness for C7 on the concrete grid `X j = j` over `Fin 4`. -/
theorem C7_smooth_gate_shape_witness :
    (StrictMono (fun j : Fin 4 => ((j : ℕ) : ℝ)) ∧ (0 : Fin 4) < 1 ∧
      (1 : Fin 4) < 2 ∧ (2 : Fin 4) < 3) ∧
      gateShape (fun j : Fin 4 => ((j : ℕ) : ℝ)) 0 1 2 3 :=
  ⟨⟨castFin_strictMono 4, by decide, by decide, by decide⟩,
    C7_smooth_gate_shape _ 0 1 2 3 (castFin_strictMono 4) (by decide)
      (by decide) (by decide)⟩

/-! ### Claim C10 -/

/-- The claimed mask identities: `H1 + H2 = 1 - psi_1D` at every grid point,
and `H1`, `H2` vanish at and between the buffer boundary indices. -/
def maskIdent {n : ℕ} (X : Fin n → ℝ) (il i1 i2 ir : Fin n) : Prop :=
  (∀ j, H1 X il i1 i2 ir j + H2 X il i1 i2 ir j =
    1 - psi_1D X il i1 i2 ir j) ∧
  (∀ j, i1 ≤ j → j ≤ i2 → H1 X il i1 i2 ir j = 0 ∧ H2 X il i1 i2 ir j = 0)

/-- Claim C10: for a monotone grid with valid index ordering,
`H1 + H2 = 1 - psi_1D` holds exactly at every grid point, and both masks are
exactly zero at `i1`, `i2` and at every point between them, because they are
built from the strict inequalities `X < X[i1]` and `X > X[i2]`. -/
theorem C10_mask_identity {n : ℕ} (X : Fin n → ℝ) (il i1 i2 ir : Fin n)
    (hm : Monotone X) (hl1 : X il < X i1) (h12 : X i1 ≤ X i2)
    (h2r : X i2 < X ir) : maskIdent X il i1 i2 ir := by
  constructor
  · intro j
    unfold H1 H2
    rcases lt_or_le (X j) (X i1) with h | h
    · rw [if_pos h, if_neg (by intro hc; linarith)]
      ring
    rcases le_or_lt (X j) (X i2) with h2 | h2
    · rw [if_neg (not_lt.mpr h), if_neg (not_lt.mpr h2)]
      unfold psi_1D
      rw [smooth_gate_eq_one hl1 h2r h h2]
      ring
    · rw [if_neg (not_lt.mpr h), if_pos h2]
      ring
  · intro j hj1 hj2
    constructor
    · unfold H1
      rw [if_neg (not_lt.mpr (hm hj1))]
      ring
    · unfold H2
      rw [if_neg (not_lt.mpr (hm hj2))]
      ring

/-- Witness for C10 on the concrete grid `X j = j` over `Fin 4`. -/
theorem C10_mask_identity_witness :
    (Monotone (fun j : Fin 4 => ((j : ℕ) : ℝ)) ∧
      ((0 : Fin 4) : ℕ) < ((1 : Fin 4) : ℕ) ∧
      ((1 : Fin 4) : ℕ) ≤ ((2 : Fin 4) : ℕ) ∧
      ((2 : Fin 4) : ℕ) < ((3 : Fin 4) : ℕ)) ∧
      maskIdent (fun j : Fin 4 => ((j : ℕ) : ℝ)) 0 1 2 3 :=
  ⟨⟨(castFin_strictMono 4).monotone, by decide, by decide, by decide⟩,
    C10_mask_identity _ 0 1 2 3 (castFin_strictMono 4).monotone
      (castFin_strictMono 4 (by decide)) ((castFin_strictMono 4).monotone
        (by decide : (1 : Fin 4) ≤ 2)) (castFin_strictMono 4 (by decide))⟩

/-! ### The program's concrete configuration (source lines 19-50)

Negative Python indices are resolved to absolute positions:
`il = 4`, `i1 = 64`, `i2 = -64 -> 448`, `ir = -4 -> 508`, `im1 = 32`,
`im2 = -32 -> 480`. -/

namespace Prog

def Npx : ℕ := 512

noncomputable def Lx : ℝ := 32 * Real.pi

/-- The radial grid `X = arange(0, Lx, Lx/Npx)` (source line 45). -/
noncomputable def X : Fin Npx → ℝ := fun j => j * (Lx / Npx)

def il : Fin Npx := ⟨4, by decide⟩

def i1 : Fin Npx := ⟨64, by decide⟩

def i2 : Fin Npx := ⟨448, by decide⟩

def ir : Fin Npx := ⟨508, by decide⟩

def im1 : Fin Npx := ⟨32, by decide⟩

def im2 : Fin Npx := ⟨480, by decide⟩

noncomputable def sigS : ℝ := 5 * Lx / Npx

noncomputable def mupen : ℝ := 100

/-- The initial density profile (source line 50). -/
noncomputable def nr0 : Fin Npx → ℝ :=
  fun j => Lx * (Real.tanh ((1 - 3 * X j / Lx / 2) * 4) / 2 + 0.75)

lemma Lx_pos : 0 < Lx := by
  unfold Lx
  positivity

lemma X_mono : Monotone X := by
  intro j k hjk
  unfold X
  have hc : ((j : ℕ) : ℝ) ≤ ((k : ℕ) : ℝ) := by exact_mod_cast hjk
  have hd : 0 ≤ Lx / (Npx : ℝ) := div_nonneg Lx_pos.le (Nat.cast_nonneg _)
  exact mul_le_mul_of_nonneg_right hc hd

lemma X_strictMono : StrictMono X := by
  intro j k hjk
  unfold X
  have hc : ((j : ℕ) : ℝ) < ((k : ℕ) : ℝ) := by exact_mod_cast hjk
  have hd : 0 < Lx / (Npx : ℝ) :=
    div_pos Lx_pos (by exact_mod_cast (by decide : 0 < Npx))
  exact mul_lt_mul_of_pos_right hc hd

end Prog

/-! ### Claim C1 -/

/-- Claim C1 counterexample: at the program's configuration there is no state
for which the density derivative at index `i2` is nonzero after the full
boundary-condition tail of `rhs` (sources of lines 292-293 followed by the
restoring force of line 297): the restoring force vanishes identically at
`i2`, so the zeroing is not undone. -/
theorem C1_no_nonzero_at_i2 :
    ¬ ∃ d0 nr : Fin Prog.Npx → ℝ,
      dnrdt_bc Prog.X Prog.il Prog.i1 Prog.i2 Prog.ir Prog.sigS Prog.mupen
        Prog.nr0 nr d0 Prog.i2 ≠ 0 := by
  rintro ⟨d0, nr, hne⟩
  exact hne (dnrdt_bc_at_i2 _ _ _ _ _ _ _ _ _ _
    (Prog.X_mono (by decide : Prog.i1 ≤ Prog.i2)))

/-- Claim C1 (amended): for every state, the density-profile derivative at
index `i2` after the full RHS assembly is exactly zero: the buffer restoring
force of source line 297 is built from the strict-inequality masks `H1`, `H2`,
both of which vanish at `i2`, so the boundary-source zeroing of line 292 is
not undone by the later term. -/
theorem C1_assembled_zero_at_i2 {n : ℕ} (X : Fin n → ℝ) (il i1 i2 ir : Fin n)
    (sigS mupen : ℝ) (nr0 nr d0 : Fin n → ℝ) (h : X i1 ≤ X i2) :
    dnrdt_bc X il i1 i2 ir sigS mupen nr0 nr d0 i2 = 0 :=
  dnrdt_bc_at_i2 X il i1 i2 ir sigS mupen nr0 nr d0 h

/-- Witness for the amended C1 on a concrete instance. -/
theorem C1_assembled_zero_at_i2_witness :
    ((fun _ : Fin 4 => (0 : ℝ)) 1 ≤ (fun _ : Fin 4 => (0 : ℝ)) 2) ∧
      dnrdt_bc (fun _ : Fin 4 => (0 : ℝ)) 0 1 2 3 1 1 (fun _ => 0)
        (fun _ => 0) (fun _ => 0) 2 = 0 :=
  ⟨le_refl 0, C1_assembled_zero_at_i2 (fun _ : Fin 4 => (0 : ℝ)) 0 1 2 3 1 1
    (fun _ => 0) (fun _ => 0) (fun _ => 0) (le_refl 0)⟩

/-! ### Claim C8 -/

/-- Claim C8: the zonal profile returned by `dec_prof` has domain mean exactly
zero, for every input profile and grid: the last step subtracts the mean. -/
theorem C8_dec_prof_mean_zero {n : ℕ} (nr X : Fin n → ℝ)
    (il im1 i1 i2 im2 ir : Fin n) :
    mean (dec_prof nr X il im1 i1 i2 im2 ir).1 = 0 := by
  have hn : (0 : ℝ) < n := by exact_mod_cast il.pos
  unfold dec_prof mean
  simp only
  rw [Finset.sum_sub_distrib, Finset.sum_const, Finset.card_univ,
    Fintype.card_fin, nsmul_eq_mul, mul_div_cancel₀ _ hn.ne']
  simp

/-! ### Claim C5: the dealiased mode set -/

/-- Modelled from the spec: the dealiased mode set built by `slicelist` and
`init_kspace_grid` from the external `mlsarray` library (not under `src/`).
Per the spec, the set holds modes `(mx, my)` with `my` in `[0, Ny/2]` and
`mx` within the two-thirds cutoff `Nx/2`, excludes the `(0,0)` mean mode by
construction, and its `my = 0` (zonal) row keeps only `mx >= 1` (the
Hermitian-redundant negative-`mx` zonal entries are reconstructed by
conjugation at inverse-transform time).  `Kx`, `Ky` stand for `Nx/2`,
`Ny/2`. -/
def retained2 (Kx Ky : ℕ) : Finset (ℤ × ℤ) :=
  (Finset.Ioo (-(Kx : ℤ)) (Kx : ℤ) ×ˢ Finset.Icc (0 : ℤ) (Ky : ℤ)).filter
    (fun m => m.2 = 0 → 1 ≤ m.1)

/-- Wavenumber `kx` of a mode (`kx = lkx * dkx`, source line 58). -/
def kx_of (dkx : ℝ) (m : ℤ × ℤ) : ℝ := m.1 * dkx

/-- Wavenumber `ky` of a mode (`ky = lky * dky`, source line 58). -/
def ky_of (dky : ℝ) (m : ℤ × ℤ) : ℝ := m.2 * dky

/-- Squared wavenumber `ksqr = kx**2 + ky**2` (source line 59). -/
def ksqr_of (dkx dky : ℝ) (m : ℤ × ℤ) : ℝ :=
  kx_of dkx m ^ 2 + ky_of dky m ^ 2

lemma retained2_zonal_kx {Kx Ky : ℕ} {m : ℤ × ℤ}
    (hm : m ∈ retained2 Kx Ky) (h0 : m.2 = 0) : 1 ≤ m.1 :=
  (Finset.mem_filter.mp hm).2 h0

/-- Claim C5: at every retained mode `ksqr` is strictly positive (the `(0,0)`
mode is excluded by construction), and `kx` is nonzero at every zonal
(`ky = 0`) mode, so the divisions by `ksqr` and by `kx[slbar]` in `rhs` are
well-defined. -/
theorem C5_ksqr_pos_kx_zonal_ne_zero (Kx Ky : ℕ) (dkx dky : ℝ)
    (hx : 0 < dkx) (hy : 0 < dky) :
    (∀ m ∈ retained2 Kx Ky, 0 < ksqr_of dkx dky m) ∧
    (∀ m ∈ retained2 Kx Ky, m.2 = 0 → kx_of dkx m ≠ 0) := by
  have hzon : ∀ m ∈ retained2 Kx Ky, m.2 = 0 → 0 < kx_of dkx m := by
    intro m hm h0
    have h1 : (1 : ℝ) ≤ (m.1 : ℝ) := by
      exact_mod_cast retained2_zonal_kx hm h0
    unfold kx_of
    nlinarith
  constructor
  · intro m hm
    rcases eq_or_ne m.2 0 with h0 | h0
    · exact add_pos_of_pos_of_nonneg (pow_pos (hzon m hm h0) 2)
        (sq_nonneg _)
    · have hky : ky_of dky m ≠ 0 :=
        mul_ne_zero (by exact_mod_cast h0) hy.ne'
      exact add_pos_of_nonneg_of_pos (sq_nonneg _)
        (lt_of_le_of_ne (sq_nonneg _) (Ne.symm (pow_ne_zero 2 hky)))
  · intro m hm h0
    exact (hzon m hm h0).ne'

/-- Witness for C5 at the program's mode-set size `Kx = Ky = 170`. -/
theorem C5_ksqr_pos_kx_zonal_ne_zero_witness :
    (0 < (1 : ℝ)) ∧ (0 < (1 : ℝ)) ∧
      ((∀ m ∈ retained2 170 170, 0 < ksqr_of 1 1 m) ∧
        (∀ m ∈ retained2 170 170, m.2 = 0 → kx_of 1 m ≠ 0)) :=
  ⟨one_pos, one_pos, C5_ksqr_pos_kx_zonal_ne_zero 170 170 1 1 one_pos one_pos⟩

/-! ### Claim C4: spectral round-trip

The transforms call `rfft2`/`mlsarray` (external library) and `xp.fft`
(cupy); they are modelled from the spec as discrete Fourier analysis /
synthesis over the retained mode set, with forward normalization. -/

/-- The unit character `exp(2 pi i t / N)`. -/
noncomputable def eN (N : ℕ) (t : ℤ) : ℂ :=
  Complex.exp (2 * Real.pi * Complex.I * t / N)

lemma eN_add (N : ℕ) (s t : ℤ) : eN N (s + t) = eN N s * eN N t := by
  unfold eN
  rw [← Complex.exp_add]
  congr 1
  push_cast
  ring

lemma eN_conj (N : ℕ) (t : ℤ) : (starRingEnd ℂ) (eN N t) = eN N (-t) := by
  unfold eN
  rw [← Complex.exp_conj]
  congr 1
  simp only [map_div₀, map_mul, map_ofNat, Complex.conj_ofReal,
    Complex.conj_I, map_intCast, map_natCast]
  push_cast
  ring

lemma eN_pow (N : ℕ) (t : ℤ) (j : ℕ) : eN N (t * j) = eN N t ^ j := by
  unfold eN
  rw [← Complex.exp_nat_mul]
  congr 1
  push_cast
  ring

lemma eN_eq_one_iff {N : ℕ} (hN : 0 < N) (t : ℤ) :
    eN N t = 1 ↔ (N : ℤ) ∣ t := by
  unfold eN
  rw [Complex.exp_eq_one_iff]
  have hπ : (Real.pi : ℂ) ≠ 0 := Complex.ofReal_ne_zero.mpr Real.pi_ne_zero
  have hNc : (N : ℂ) ≠ 0 := Nat.cast_ne_zero.mpr hN.ne'
  have h2πI : (2 * (Real.pi : ℂ) * Complex.I) ≠ 0 := by
    simp [hπ, Complex.I_ne_zero]
  constructor
  · rintro ⟨k, hk⟩
    refine ⟨k, ?_⟩
    have h2 : (t : ℂ) = (N : ℂ) * k := by
      apply mul_left_cancel₀ h2πI
      field_simp at hk
      linear_combination hk
    exact_mod_cast h2
  · rintro ⟨k, rfl⟩
    refine ⟨k, ?_⟩
    push_cast
    field_simp
    ring

lemma eN_sum {N : ℕ} (hN : 0 < N) (t : ℤ) :
    ∑ j : Fin N, eN N (t * ((j : ℕ) : ℤ)) =
      if (N : ℤ) ∣ t then (N : ℂ) else 0 := by
  have hstep : ∑ j : Fin N, eN N (t * ((j : ℕ) : ℤ)) =
      ∑ k in Finset.range N, eN N t ^ k := by
    rw [← Fin.sum_univ_eq_sum_range (fun k => eN N t ^ k)]
    exact Finset.sum_congr rfl fun j _ => eN_pow N t (j : ℕ)
  rw [hstep]
  by_cases h : (N : ℤ) ∣ t
  · rw [if_pos h, (eN_eq_one_iff hN t).mpr h]
    simp
  · have hne : eN N t ≠ 1 := fun hc => h ((eN_eq_one_iff hN t).mp hc)
    rw [if_neg h, geom_sum_eq hne]
    have hNt : eN N t ^ N = 1 := by
      rw [← eN_pow]
      exact (eN_eq_one_iff hN (t * N)).mpr ⟨t, by ring⟩
    rw [hNt, sub_self, zero_div]

lemma int_dvd_small_eq_zero {N t : ℤ} (hdvd : N ∣ t) (hb : |t| < N) :
    t = 0 := by
  by_contra h
  exact absurd (Int.le_of_dvd (abs_pos.mpr h) ((dvd_abs N t).mpr hdvd))
    (not_le.mpr hb)

lemma two_re_mul (z w : ℂ) :
    ((2 * z.re : ℝ) : ℂ) * w = z * w + (starRingEnd ℂ) z * w := by
  have h : ((2 * z.re : ℝ) : ℂ) = z + (starRingEnd ℂ) z := by
    rw [Complex.add_conj]
  rw [h, add_mul]

/-- Modelled from the spec: `rft` (source lines 153-158) is
`xp.fft.rfft(v, norm='forward')[1 : Nx/2]` - the forward-normalized 1D real
transform truncated to the non-mean dealiased modes `1 <= m < K` with
`K = Nx/2` (the fft itself comes from the external cupy library).
Coefficients outside the retained range are zero. -/
noncomputable def rft (N K : ℕ) (v : Fin N → ℝ) : ℕ → ℂ := fun m =>
  if 1 ≤ m ∧ m < K then
    (∑ j : Fin N, ((v j : ℝ) : ℂ) * eN N (-((m : ℤ) * ((j : ℕ) : ℤ)))) / N
  else 0

/-- Modelled from the spec: `irft` (source lines 160-167) zero-pads the
retained modes into the half-spectrum of length `Npx/2 + 1` and applies the
real inverse transform without scaling (`norm='forward'`): the sum over the
Hermitian-extended full spectrum, i.e. each retained mode together with its
conjugate partner. -/
noncomputable def irft (N K : ℕ) (c : ℕ → ℂ) : Fin N → ℝ := fun j =>
  ∑ m in Finset.Ico 1 K, 2 * (c m * eN N ((m : ℤ) * ((j : ℕ) : ℤ))).re

lemma irft_congr {N K : ℕ} {c₁ c₂ : ℕ → ℂ}
    (h : ∀ m, 1 ≤ m → m < K → c₁ m = c₂ m) : irft N K c₁ = irft N K c₂ := by
  funext j
  unfold irft
  refine Finset.sum_congr rfl fun m hm => ?_
  have hb := Finset.mem_Ico.mp hm
  rw [h m hb.1 hb.2]

lemma rft_irft {N K : ℕ} (hN : 0 < N) (h2K : 2 * K ≤ N) (c : ℕ → ℂ)
    {m : ℕ} (hm1 : 1 ≤ m) (hmK : m < K) :
    rft N K (irft N K c) m = c m := by
  unfold rft
  rw [if_pos ⟨hm1, hmK⟩]
  have hNc : (N : ℂ) ≠ 0 := Nat.cast_ne_zero.mpr hN.ne'
  have expand : ∀ j : Fin N,
      ((irft N K c j : ℝ) : ℂ) * eN N (-((m : ℤ) * ((j : ℕ) : ℤ))) =
        ∑ q in Finset.Ico 1 K,
          (c q * eN N (((q : ℤ) - m) * ((j : ℕ) : ℤ)) +
            (starRingEnd ℂ) (c q) *
              eN N ((-((q : ℤ) + m)) * ((j : ℕ) : ℤ))) := by
    intro j
    unfold irft
    rw [Complex.ofReal_sum, Finset.sum_mul]
    refine Finset.sum_congr rfl fun q _ => ?_
    rw [two_re_mul]
    congr 1
    · rw [mul_assoc, ← eN_add]
      congr 1
      ring
    · rw [map_mul, eN_conj, mul_assoc, ← eN_add]
      congr 1
      ring
  rw [Finset.sum_congr rfl fun j _ => expand j, Finset.sum_comm]
  have inner : ∀ q ∈ Finset.Ico 1 K,
      (∑ j : Fin N,
        (c q * eN N (((q : ℤ) - m) * ((j : ℕ) : ℤ)) +
          (starRingEnd ℂ) (c q) * eN N ((-((q : ℤ) + m)) * ((j : ℕ) : ℤ)))) =
      if q = m then (N : ℂ) * c m else 0 := by
    intro q hq
    have hb := Finset.mem_Ico.mp hq
    rw [Finset.sum_add_distrib, ← Finset.mul_sum, ← Finset.mul_sum,
      eN_sum hN, eN_sum hN]
    have hnd2 : ¬ (N : ℤ) ∣ -((q : ℤ) + m) := by
      rw [dvd_neg]
      intro hc
      have hle := Int.le_of_dvd (by omega) hc
      have hKN : (2 * K : ℤ) ≤ N := by exact_mod_cast h2K
      omega
    rw [if_neg hnd2, mul_zero, add_zero]
    by_cases hqm : q = m
    · subst hqm
      rw [if_pos (by simp), if_pos rfl]
      ring
    · have hnd1 : ¬ (N : ℤ) ∣ ((q : ℤ) - m) := by
        intro hc
        have h0 : ((q : ℤ) - m) = 0 := by
          apply int_dvd_small_eq_zero hc
          have hKN : (2 * K : ℤ) ≤ N := by exact_mod_cast h2K
          rw [abs_lt]
          omega
        exact hqm (by exact_mod_cast sub_eq_zero.mp h0)
      rw [if_neg hnd1, mul_zero, if_neg hqm]
  rw [Finset.sum_congr rfl inner, Finset.sum_ite_eq' (Finset.Ico 1 K) m
    (fun _ => (N : ℂ) * c m), if_pos (Finset.mem_Ico.mpr ⟨hm1, hmK⟩),
    mul_comm, mul_div_assoc, div_self hNc, mul_one]

lemma irft_roundtrip {N K : ℕ} (hN : 0 < N) (h2K : 2 * K ≤ N)
    (v : Fin N → ℝ) (hv : ∃ c, v = irft N K c) :
    irft N K (rft N K v) = v := by
  obtain ⟨c, rfl⟩ := hv
  exact irft_congr fun m hm1 hmK => rft_irft hN h2K c hm1 hmK

lemma retained2_bounds {Kx Ky : ℕ} {q : ℤ × ℤ} (hq : q ∈ retained2 Kx Ky) :
    -(Kx : ℤ) < q.1 ∧ q.1 < Kx ∧ 0 ≤ q.2 ∧ q.2 ≤ Ky ∧
      (q.2 = 0 → 1 ≤ q.1) := by
  have h := Finset.mem_filter.mp hq
  have hp := Finset.mem_product.mp h.1
  have h1 := Finset.mem_Ioo.mp hp.1
  have h2 := Finset.mem_Icc.mp hp.2
  exact ⟨h1.1, h1.2, h2.1, h2.2, h.2⟩

lemma double_sum_factor {N1 N2 : ℕ} (a : ℂ) (f : Fin N1 → ℂ)
    (g : Fin N2 → ℂ) :
    ∑ j1 : Fin N1, ∑ j2 : Fin N2, a * (f j1 * g j2) =
      a * ((∑ j1 : Fin N1, f j1) * (∑ j2 : Fin N2, g j2)) := by
  rw [Finset.sum_mul_sum, Finset.mul_sum]
  exact Finset.sum_congr rfl fun j1 _ => by rw [Finset.mul_sum]

lemma term_expand2 {N1 N2 : ℕ} (cq : ℂ) (q1 q2 w1 w2 a b : ℤ) :
    ((2 * (cq * (eN N1 (q1 * a) * eN N2 (q2 * b))).re : ℝ) : ℂ) *
      (eN N1 (-(w1 * a)) * eN N2 (-(w2 * b))) =
    cq * (eN N1 ((q1 - w1) * a) * eN N2 ((q2 - w2) * b)) +
      (starRingEnd ℂ) cq *
        (eN N1 (-(q1 + w1) * a) * eN N2 (-(q2 + w2) * b)) := by
  rw [two_re_mul]
  congr 1
  · rw [show (q1 - w1) * a = q1 * a + -(w1 * a) from by ring,
      show (q2 - w2) * b = q2 * b + -(w2 * b) from by ring, eN_add, eN_add]
    ring
  · rw [map_mul, map_mul, eN_conj, eN_conj,
      show -(q1 + w1) * a = -(q1 * a) + -(w1 * a) from by ring,
      show -(q2 + w2) * b = -(q2 * b) + -(w2 * b) from by ring, eN_add,
      eN_add]
    ring

/-- Modelled from the spec: `rft2` (source lines 134-140) - the 2D
real-to-complex transform at forward normalization, truncated to the
dealiased mode set (`rfft2` and `mlsarray` come from the external library);
the fixed mode ordering of the flattened output is represented by indexing
modes with their wavenumber pair. -/
noncomputable def rft2 (N1 N2 Kx Ky : ℕ) (g : Fin N1 → Fin N2 → ℝ) :
    ℤ × ℤ → ℂ := fun w =>
  if w ∈ retained2 Kx Ky then
    (∑ j1 : Fin N1, ∑ j2 : Fin N2, ((g j1 j2 : ℝ) : ℂ) *
      (eN N1 (-(w.1 * ((j1 : ℕ) : ℤ))) * eN N2 (-(w.2 * ((j2 : ℕ) : ℤ))))) /
      ((N1 : ℂ) * N2)
  else 0

/-- Modelled from the spec: `irft2` (source lines 142-151) zero-pads the
non-retained modes, reconstructs the Hermitian-conjugate partners of the
retained modes, and inverse transforms without scaling: the synthesis sums
each retained mode together with its conjugate partner, producing a real
grid. -/
noncomputable def irft2 (N1 N2 Kx Ky : ℕ) (c : ℤ × ℤ → ℂ) :
    Fin N1 → Fin N2 → ℝ := fun j1 j2 =>
  ∑ q in retained2 Kx Ky,
    2 * (c q * (eN N1 (q.1 * ((j1 : ℕ) : ℤ)) *
      eN N2 (q.2 * ((j2 : ℕ) : ℤ)))).re

lemma irft2_congr {N1 N2 Kx Ky : ℕ} {c₁ c₂ : ℤ × ℤ → ℂ}
    (h : ∀ q ∈ retained2 Kx Ky, c₁ q = c₂ q) :
    irft2 N1 N2 Kx Ky c₁ = irft2 N1 N2 Kx Ky c₂ := by
  funext j1 j2
  unfold irft2
  exact Finset.sum_congr rfl fun q hq => by rw [h q hq]

lemma rft2_irft2 {N1 N2 Kx Ky : ℕ} (hN1 : 0 < N1) (hN2 : 0 < N2)
    (hKx : 2 * Kx ≤ N1) (hKy : 2 * Ky < N2) (c : ℤ × ℤ → ℂ) {w : ℤ × ℤ}
    (hw : w ∈ retained2 Kx Ky) :
    rft2 N1 N2 Kx Ky (irft2 N1 N2 Kx Ky c) w = c w := by
  unfold rft2
  rw [if_pos hw]
  have hNc : ((N1 : ℂ) * N2) ≠ 0 :=
    mul_ne_zero (Nat.cast_ne_zero.mpr hN1.ne') (Nat.cast_ne_zero.mpr hN2.ne')
  obtain ⟨hw1a, hw1b, hw2a, hw2b, hw0⟩ := retained2_bounds hw
  have hKxZ : (2 * Kx : ℤ) ≤ N1 := by exact_mod_cast hKx
  have hKyZ : (2 * Ky : ℤ) < N2 := by exact_mod_cast hKy
  have expand : ∀ (j1 : Fin N1) (j2 : Fin N2),
      ((irft2 N1 N2 Kx Ky c j1 j2 : ℝ) : ℂ) *
        (eN N1 (-(w.1 * ((j1 : ℕ) : ℤ))) * eN N2 (-(w.2 * ((j2 : ℕ) : ℤ)))) =
      ∑ q in retained2 Kx Ky,
        (c q * (eN N1 ((q.1 - w.1) * ((j1 : ℕ) : ℤ)) *
            eN N2 ((q.2 - w.2) * ((j2 : ℕ) : ℤ))) +
          (starRingEnd ℂ) (c q) *
            (eN N1 (-(q.1 + w.1) * ((j1 : ℕ) : ℤ)) *
              eN N2 (-(q.2 + w.2) * ((j2 : ℕ) : ℤ)))) := by
    intro j1 j2
    unfold irft2
    rw [Complex.ofReal_sum, Finset.sum_mul]
    exact Finset.sum_congr rfl fun q _ =>
      term_expand2 (c q) q.1 q.2 w.1 w.2 _ _
  rw [Finset.sum_congr rfl fun j1 _ =>
    Finset.sum_congr rfl fun j2 _ => expand j1 j2]
  rw [Finset.sum_congr rfl fun j1 _ => Finset.sum_comm, Finset.sum_comm]
  have inner : ∀ q ∈ retained2 Kx Ky,
      (∑ j1 : Fin N1, ∑ j2 : Fin N2,
        (c q * (eN N1 ((q.1 - w.1) * ((j1 : ℕ) : ℤ)) *
            eN N2 ((q.2 - w.2) * ((j2 : ℕ) : ℤ))) +
          (starRingEnd ℂ) (c q) *
            (eN N1 (-(q.1 + w.1) * ((j1 : ℕ) : ℤ)) *
              eN N2 (-(q.2 + w.2) * ((j2 : ℕ) : ℤ))))) =
      if q = w then (N1 : ℂ) * N2 * c w else 0 := by
    intro q hq
    obtain ⟨hq1a, hq1b, hq2a, hq2b, hq0⟩ := retained2_bounds hq
    rw [Finset.sum_congr rfl fun j1 _ => Finset.sum_add_distrib,
      Finset.sum_add_distrib, double_sum_factor, double_sum_factor,
      eN_sum hN1, eN_sum hN2, eN_sum hN1, eN_sum hN2]
    have hconj : (if (N1 : ℤ) ∣ -(q.1 + w.1) then (N1 : ℂ) else 0) *
        (if (N2 : ℤ) ∣ -(q.2 + w.2) then (N2 : ℂ) else 0) = 0 := by
      by_cases hd4 : (N2 : ℤ) ∣ -(q.2 + w.2)
      · rw [dvd_neg] at hd4
        have hsum0 : q.2 + w.2 = 0 := by
          apply int_dvd_small_eq_zero hd4
          rw [abs_of_nonneg (by omega)]
          omega
        have hq11 := hq0 (by omega)
        have hw11 := hw0 (by omega)
        have hnd3 : ¬ (N1 : ℤ) ∣ -(q.1 + w.1) := by
          rw [dvd_neg]
          intro hc
          have := Int.le_of_dvd (by omega) hc
          omega
        rw [if_neg hnd3, zero_mul]
      · rw [if_neg hd4, mul_zero]
    rw [hconj, mul_zero, add_zero]
    by_cases hqw : q = w
    · subst hqw
      rw [if_pos (show (N1 : ℤ) ∣ q.1 - q.1 by simp),
        if_pos (show (N2 : ℤ) ∣ q.2 - q.2 by simp), if_pos rfl]
      ring
    · have hsplit : ¬ (N1 : ℤ) ∣ (q.1 - w.1) ∨ ¬ (N2 : ℤ) ∣ (q.2 - w.2) := by
        by_contra hcon
        push_neg at hcon
        have h1 : q.1 - w.1 = 0 :=
          int_dvd_small_eq_zero hcon.1 (by rw [abs_lt]; omega)
        have h2 : q.2 - w.2 = 0 :=
          int_dvd_small_eq_zero hcon.2 (by rw [abs_lt]; omega)
        exact hqw (Prod.ext (by omega) (by omega))
      rcases hsplit with hnd | hnd
      · rw [if_neg hnd, zero_mul, mul_zero, if_neg hqw]
      · rw [if_neg hnd, mul_zero, mul_zero, if_neg hqw]
  rw [Finset.sum_congr rfl inner, Finset.sum_ite_eq' (retained2 Kx Ky) w
    (fun _ => (N1 : ℂ) * N2 * c w), if_pos hw]
  exact mul_div_cancel_left₀ _ hNc

lemma irft2_roundtrip {N1 N2 Kx Ky : ℕ} (hN1 : 0 < N1) (hN2 : 0 < N2)
    (hKx : 2 * Kx ≤ N1) (hKy : 2 * Ky < N2) (g : Fin N1 → Fin N2 → ℝ)
    (hg : ∃ c, g = irft2 N1 N2 Kx Ky c) :
    irft2 N1 N2 Kx Ky (rft2 N1 N2 Kx Ky g) = g := by
  obtain ⟨c, rfl⟩ := hg
  exact irft2_congr fun q hq => rft2_irft2 hN1 hN2 hKx hKy c hq

/-- The 2D round-trip property of the spec: every real grid whose spectral
content is confined to the retained dealiased mode set is reproduced by
analysis followed by synthesis. -/
def dealiased_roundtrip_2d (N1 N2 Kx Ky : ℕ) : Prop :=
  ∀ g : Fin N1 → Fin N2 → ℝ, (∃ c, g = irft2 N1 N2 Kx Ky c) →
    irft2 N1 N2 Kx Ky (rft2 N1 N2 Kx Ky g) = g

/-- The 1D round-trip property of the spec: every real profile whose content
is confined to the retained non-mean modes below the cutoff is reproduced. -/
def dealiased_roundtrip_1d (N K : ℕ) : Prop :=
  ∀ v : Fin N → ℝ, (∃ c, v = irft N K c) → irft N K (rft N K v) = v

/-- Claim C4: `irft2 (rft2 g) = g` for every real grid with content confined
to the dealiased mode set, and `irft (rft v) = v` for every real profile with
content confined to the retained non-mean 1D modes, whenever the mode cutoffs
fit inside the padded resolutions (as the two-thirds rule guarantees). -/
theorem C4_transform_roundtrip (N1 N2 Kx Ky N K : ℕ) (hN1 : 0 < N1)
    (hN2 : 0 < N2) (hKx : 2 * Kx ≤ N1) (hKy : 2 * Ky < N2) (hN : 0 < N)
    (h2K : 2 * K ≤ N) :
    dealiased_roundtrip_2d N1 N2 Kx Ky ∧ dealiased_roundtrip_1d N K :=
  ⟨fun g hg => irft2_roundtrip hN1 hN2 hKx hKy g hg,
    fun v hv => irft_roundtrip hN h2K v hv⟩

/-- Witness for C4 at the program's resolutions: `Npx = Npy = 512`,
`Nx/2 = Ny/2 = 170`. -/
theorem C4_transform_roundtrip_witness :
    (0 < 512 ∧ 2 * 170 ≤ 512 ∧ 2 * 170 < 512) ∧
      dealiased_roundtrip_2d 512 512 170 170 ∧
        dealiased_roundtrip_1d 512 170 :=
  ⟨⟨by decide, by decide, by decide⟩,
    C4_transform_roundtrip 512 512 170 170 512 170 (by decide) (by decide)
      (by decide) (by decide) (by decide) (by decide)⟩

/-! ### Claim C6: the RHS evaluator does not mutate its input

The flat state buffer handed to the integrator is reinterpreted by the source
as complex (`z = y.view(dtype=complex)`, a bijective reinterpretation of
adjacent float pairs), and `rhs` takes read-only views `ur`, `nr` (real parts
of the first `2 Npx` complex entries) and `zk` (the turbulent tail), while
every in-place `+=` targets a view of the freshly allocated
`dzdt = zeros_like(z)`.  The memory is embedded as the pair of complex
buffers `(y, dzdt)`; the spectral stages (source lines 252-283), which only
read the decoded fields and fresh temporaries, are abstracted as arbitrary
functions `Fphi`, `Fn` (zonal derivative contributions of lines 285-286) and
`Fturb` (the turbulent-mode derivative of line 300). -/

/-- Index of `ur[i]` in the complex view of the state (source line 248). -/
def urIdx {n T : ℕ} (i : Fin n) : Fin (2 * n + 2 * T) :=
  ⟨i, by have := i.isLt; omega⟩

/-- Index of `nr[i]` in the complex view of the state (source line 248). -/
def nrIdx {n T : ℕ} (i : Fin n) : Fin (2 * n + 2 * T) :=
  ⟨n + i, by have := i.isLt; omega⟩

/-- Index of `zk[t]` in the complex view of the state (source line 244). -/
def zkIdx {n T : ℕ} (t : Fin (2 * T)) : Fin (2 * n + 2 * T) :=
  ⟨2 * n + t, by have := t.isLt; omega⟩

/-- The body of `rhs` (source lines 237-303) as explicit state passing on the
pair (input state, derivative buffer): decode the fields, assemble the
derivative from a zero buffer by the line-by-line updates of lines 285-297
and the turbulent write of line 300, and return both buffers.  Every read
targets `y`; every write targets the derivative. -/
noncomputable def rhs_mem {n T : ℕ} (X : Fin n → ℝ) (il i1 i2 ir : Fin n)
    (sigS mupen : ℝ) (nr0 : Fin n → ℝ)
    (Fphi Fn : (Fin n → ℝ) → (Fin n → ℝ) → (Fin (2 * T) → ℂ) → Fin n → ℝ)
    (Fturb : (Fin n → ℝ) → (Fin n → ℝ) → (Fin (2 * T) → ℂ) → Fin (2 * T) → ℂ)
    (y : Fin (2 * n + 2 * T) → ℂ) :
    (Fin (2 * n + 2 * T) → ℂ) × (Fin (2 * n + 2 * T) → ℂ) :=
  let ur : Fin n → ℝ := fun i => (y (urIdx i)).re
  let nr : Fin n → ℝ := fun i => (y (nrIdx i)).re
  let zk : Fin (2 * T) → ℂ := fun t => y (zkIdx t)
  let durdt1 : Fin n → ℝ :=
    fun i => 0 + Fphi ur nr zk i * psi_1D X il i1 i2 ir i
  let dnrdt1 : Fin n → ℝ :=
    fun i => 0 + Fn ur nr zk i * psi_1D X il i1 i2 ir i
  let durdt2 : Fin n → ℝ :=
    fun i => durdt1 i + -mupen * (1 - psi_1D X il i1 i2 ir i) * ur i
  let dnrdt2 : Fin n → ℝ := dnrdt_bc X il i1 i2 ir sigS mupen nr0 nr dnrdt1
  let dzkdt : Fin (2 * T) → ℂ := Fturb ur nr zk
  (y, fun idx =>
    if h1 : (idx : ℕ) < n then ⟨durdt2 ⟨idx, h1⟩, 0⟩
    else if h2 : (idx : ℕ) < 2 * n then ⟨dnrdt2 ⟨(idx : ℕ) - n, by omega⟩, 0⟩
    else dzkdt ⟨(idx : ℕ) - 2 * n, by have := idx.isLt; omega⟩)

/-- Claim C6: for every time and flat state, `rhs` leaves its input unchanged
and the derivative it returns is assembled in a freshly allocated buffer of
the same length (the same index type), sharing no entry with the input: the
first component of the state-passing embedding is returned untouched. -/
theorem C6_rhs_no_mutation {n T : ℕ} (X : Fin n → ℝ) (il i1 i2 ir : Fin n)
    (sigS mupen : ℝ) (nr0 : Fin n → ℝ)
    (Fphi Fn : (Fin n → ℝ) → (Fin n → ℝ) → (Fin (2 * T) → ℂ) → Fin n → ℝ)
    (Fturb : (Fin n → ℝ) → (Fin n → ℝ) → (Fin (2 * T) → ℂ) → Fin (2 * T) → ℂ)
    (y : Fin (2 * n + 2 * T) → ℂ) :
    (rhs_mem X il i1 i2 ir sigS mupen nr0 Fphi Fn Fturb y).1 = y := rfl

end FDHW
